import Mathlib

/-!
Verification of the numeric core of `aliezzahn/crypto-chart`
(`src/src/EthChart.tsx`): the series aligner / min-max normalizer inside
`fetchData`, and the Pearson correlation engine
(`calculateCorrelationMatrix` / `pearsonCorrelation`).

The TypeScript code computes with IEEE doubles.  We embed the reachable
value space exactly: every number produced by this program is either a
rational, `Infinity`, `-Infinity`, or `NaN` (the inputs are finite decimal
prices, and all arithmetic here is +, -, *, /, min, max and `Math.sqrt`,
performed on small lists).  We therefore model a JS number as `JsNum`
(rational payload) for the fully computable normalization phase, and as
`JsNumR` (real payload) once `Math.sqrt` enters in `pearsonCorrelation`.
Rounding error of binary floats is idealized away - the spec and claims
speak about the exact arithmetic the code denotes.
-/

/-- Model of a JavaScript number as produced by this program: a finite
value (exact rational), one of the two infinities, or `NaN`. -/
inductive JsNum where
  | nan
  | posInf
  | negInf
  | fin (q : ℚ)
deriving DecidableEq, Repr

namespace JsNum

/-- JS `+` on numbers: `NaN` is absorbing, `Infinity + -Infinity` is `NaN`,
an infinity absorbs finite values, finite addition is exact. -/
def jadd : JsNum → JsNum → JsNum
  | .nan, _ => .nan
  | _, .nan => .nan
  | .fin a, .fin b => .fin (a + b)
  | .posInf, .negInf => .nan
  | .negInf, .posInf => .nan
  | .posInf, _ => .posInf
  | _, .posInf => .posInf
  | .negInf, _ => .negInf
  | _, .negInf => .negInf

/-- JS unary minus. -/
def jneg : JsNum → JsNum
  | .nan => .nan
  | .posInf => .negInf
  | .negInf => .posInf
  | .fin a => .fin (-a)

/-- JS `-` on numbers, which is `a + (-b)` in IEEE arithmetic. -/
def jsub (a b : JsNum) : JsNum := jadd a (jneg b)

/-- JS `*` on numbers: `NaN` absorbing, `Infinity * 0` is `NaN`, signed
infinities otherwise, finite multiplication exact. -/
def jmul : JsNum → JsNum → JsNum
  | .nan, _ => .nan
  | _, .nan => .nan
  | .fin a, .fin b => .fin (a * b)
  | .posInf, .posInf => .posInf
  | .posInf, .negInf => .negInf
  | .negInf, .posInf => .negInf
  | .negInf, .negInf => .posInf
  | .posInf, .fin b => if b = 0 then .nan else if 0 < b then .posInf else .negInf
  | .fin a, .posInf => if a = 0 then .nan else if 0 < a then .posInf else .negInf
  | .negInf, .fin b => if b = 0 then .nan else if 0 < b then .negInf else .posInf
  | .fin a, .negInf => if a = 0 then .nan else if 0 < a then .negInf else .posInf

/-- JS `/` on numbers: `0 / 0` is `NaN`, `x / 0` is a signed infinity for
finite nonzero `x`, `x / Infinity` is `0`, `Infinity / Infinity` is `NaN`.
(The distinction between `0` and `-0` is not modelled; it is unobservable
in this program.) -/
def jdiv : JsNum → JsNum → JsNum
  | .nan, _ => .nan
  | _, .nan => .nan
  | .fin a, .fin b =>
      if b = 0 then (if a = 0 then .nan else if 0 < a then .posInf else .negInf)
      else .fin (a / b)
  | .fin _, .posInf => .fin 0
  | .fin _, .negInf => .fin 0
  | .posInf, .fin b => if 0 ≤ b then .posInf else .negInf
  | .negInf, .fin b => if 0 ≤ b then .negInf else .posInf
  | .posInf, .posInf => .nan
  | .posInf, .negInf => .nan
  | .negInf, .posInf => .nan
  | .negInf, .negInf => .nan

/-- JS `Math.min` on two numbers: `NaN` propagates. -/
def jmin : JsNum → JsNum → JsNum
  | .nan, _ => .nan
  | _, .nan => .nan
  | .fin a, .fin b => .fin (min a b)
  | .posInf, x => x
  | x, .posInf => x
  | .negInf, _ => .negInf
  | _, .negInf => .negInf

/-- JS `Math.max` on two numbers: `NaN` propagates. -/
def jmax : JsNum → JsNum → JsNum
  | .nan, _ => .nan
  | _, .nan => .nan
  | .fin a, .fin b => .fin (max a b)
  | .negInf, x => x
  | x, .negInf => x
  | .posInf, _ => .posInf
  | _, .posInf => .posInf

/-- JS strict equality `===` on numbers: `NaN` is not equal to anything,
including itself. -/
def jEqb : JsNum → JsNum → Bool
  | .nan, _ => false
  | _, .nan => false
  | .fin a, .fin b => a == b
  | .posInf, .posInf => true
  | .negInf, .negInf => true
  | _, _ => false

/-- JS truthiness of a number: `0` and `NaN` are falsy. -/
def jsTruthy : JsNum → Bool
  | .nan => false
  | .fin a => decide (a ≠ 0)
  | _ => true

end JsNum

open JsNum

/-- JS `xs.reduce((a, b) => a + b, 0)`: a left fold of `+` starting at `0`. -/
def jsum (l : List JsNum) : JsNum := l.foldl jadd (.fin 0)

/-- JS `x.map((val, i) => val * y[i])`: elementwise products, where reading
past the end of `y` yields `undefined` and `val * undefined` is `NaN`. -/
def mulPairs : List JsNum → List JsNum → List JsNum
  | [], _ => []
  | v :: vs, w :: ws => jmul v w :: mulPairs vs ws
  | _ :: vs, [] => JsNum.nan :: mulPairs vs []

/-- One raw CoinGecko series: a list of `[timestamp, price]` pairs
(`result.prices`). -/
abbrev RawSeries := List (ℚ × ℚ)

/-- JS `Math.min(...prices)`: fold of binary min starting from `Infinity`
(`Math.min()` with no arguments is `Infinity`). -/
def jminList (l : List JsNum) : JsNum := l.foldl jmin .posInf

/-- JS `Math.max(...prices)`: fold of binary max starting from `-Infinity`. -/
def jmaxList (l : List JsNum) : JsNum := l.foldl jmax .negInf

/-- The per-asset `{ min: Math.min(...prices), max: Math.max(...prices) }`
record computed by `fetchData` over the full raw price list of one asset. -/
def minMaxOf (prices : List ℚ) : JsNum × JsNum :=
  (jminList (prices.map .fin), jmaxList (prices.map .fin))

/-- JS `result.prices[index]?.[1] || 0`: the price at `index`, defaulting
to `0` when the series has no entry there (`undefined || 0`); a stored
price of `0` is falsy and also yields `0`, which is the same value. -/
def rawPriceAt (prices : RawSeries) (t : ℕ) : ℚ :=
  ((prices.get? t).map Prod.snd).getD 0

/-- The body of the normalization loop:
`max === min ? 0.5 : (rawPrice - min) / (max - min)` followed by
`isNaN(normalized) ? 0 : normalized`. -/
def normCoerced (raw : ℚ) (mn mx : JsNum) : JsNum :=
  let normalized := if jEqb mx mn then JsNum.fin (1 / 2)
                    else jdiv (jsub (.fin raw) mn) (jsub mx mn)
  if normalized = .nan then .fin 0 else normalized

/-- One row of the combined table (`entry`): the `date` label (we keep the
raw timestamp; `toLocaleDateString` is presentation only) plus the
key-to-value pairs pushed by the inner `results.forEach`. -/
structure NRow where
  date : ℚ
  values : List (String × JsNum)
deriving DecidableEq, Repr

/-- One `entry` of `combinedData`, built at timestamp `ts` and index `idx`:
for each asset the loop computes the min/max of its full raw series (the
code hoists this out of the loop as the `minMax` array; the value is
identical) and stores the coerced normalized price under the asset key. -/
def mkRow (assets : List (String × RawSeries)) (ts : ℚ) (idx : ℕ) : NRow :=
  { date := ts
    values := assets.map fun a =>
      let mm := minMaxOf (a.2.map Prod.snd)
      (a.1, normCoerced (rawPriceAt a.2 idx) mm.1 mm.2) }

/-- The `timestamps.forEach((timestamp, index) => ...)` loop: one row per
timestamp, with the running index made explicit. -/
def buildRows (assets : List (String × RawSeries)) : List ℚ → ℕ → List NRow
  | [], _ => []
  | ts :: rest, idx => mkRow assets ts idx :: buildRows assets rest (idx + 1)

/-- The aligner / normalizer of `fetchData` (the contract called
`align_and_normalize` in the spec): timestamps are taken from the first
series (`results[0].prices`), and each asset is min-max normalized with the
`isNaN` coercion.  Each asset is paired with the key it is stored under. -/
def alignAndNormalize (assets : List (String × RawSeries)) : List NRow :=
  let timestamps := ((assets.headD ("", [])).2).map Prod.fst
  buildRows assets timestamps 0

/-- The fixed CoinGecko id list of the component. -/
def coins : List String := ["bitcoin", "ethereum", "binancecoin", "solana", "cardano"]

/-- The keys the table rows are written under:
`coins[i].slice(0, 3).toLowerCase()`.  On these ASCII coin ids, slicing the
first three UTF-16 code units and lowercasing is exactly taking the first
three characters and lowercasing each. -/
def chartKeys : List String :=
  coins.map fun c => String.mk ((c.data.take 3).map Char.toLower)

/-- The full normalization pipeline of `fetchData` on the fetched series
(one raw series per coin, in the order of `coins`). -/
def fetchCombined (series : List RawSeries) : List NRow :=
  alignAndNormalize (chartKeys.zip series)

/-- Model of a JS number once `Math.sqrt` has entered the computation: the
same shape as `JsNum` but with a real payload, since the square root of a
rational is in general irrational. -/
inductive JsNumR where
  | nan
  | posInf
  | negInf
  | fin (r : ℝ)

/-- Inclusion of the rational-valued JS numbers into the real-valued ones. -/
noncomputable def toR : JsNum → JsNumR
  | .nan => .nan
  | .posInf => .posInf
  | .negInf => .negInf
  | .fin q => .fin (q : ℝ)

/-- JS `Math.sqrt`: `NaN` for `NaN` and for negative arguments (including
`-Infinity`), `Infinity` for `Infinity`, the exact square root otherwise. -/
noncomputable def jsqrtR : JsNum → JsNumR
  | .nan => .nan
  | .posInf => .posInf
  | .negInf => .nan
  | .fin q => if q < 0 then .nan else .fin (Real.sqrt (q : ℝ))

open Classical in
/-- JS `/` on real-payload numbers, same rules as `JsNum.jdiv`. -/
noncomputable def jdivR : JsNumR → JsNumR → JsNumR
  | .nan, _ => .nan
  | _, .nan => .nan
  | .fin a, .fin b =>
      if b = 0 then (if a = 0 then .nan else if 0 < a then .posInf else .negInf)
      else .fin (a / b)
  | .fin _, .posInf => .fin 0
  | .fin _, .negInf => .fin 0
  | .posInf, .fin b => if 0 ≤ b then .posInf else .negInf
  | .negInf, .fin b => if 0 ≤ b then .negInf else .posInf
  | .posInf, .posInf => .nan
  | .posInf, .negInf => .nan
  | .negInf, .posInf => .nan
  | .negInf, .negInf => .nan

open Classical in
/-- `pearsonCorrelation(x, y)` from `EthChart.tsx`: the sums are JS number
arithmetic over the two columns, `n` is `x.length`, and the final value is
`denominator === 0 ? 0 : numerator / denominator` with
`denominator = Math.sqrt((sumX2 - sumX*sumX/n) * (sumY2 - sumY*sumY/n))`. -/
noncomputable def pearsonCorrelation (x y : List JsNum) : JsNumR :=
  let n : ℚ := (x.length : ℚ)
  let sumX := jsum x
  let sumY := jsum y
  let sumXY := jsum (mulPairs x y)
  let sumX2 := jsum (x.map fun v => jmul v v)
  let sumY2 := jsum (y.map fun v => jmul v v)
  let numerator := jsub sumXY (jdiv (jmul sumX sumY) (.fin n))
  let denominator := jsqrtR (jmul (jsub sumX2 (jdiv (jmul sumX sumX) (.fin n)))
                                  (jsub sumY2 (jdiv (jmul sumY sumY) (.fin n))))
  if denominator = .fin 0 then .fin 0 else jdivR (toR numerator) denominator

/-- The keys `calculateCorrelationMatrix` reads its columns under. -/
def matrixKeys : List String := ["btc", "eth", "bnb", "sol", "ada"]

/-- JS `entry[coin] || 0` as used for the column extraction: a missing key
(`undefined`) and the falsy values `0` and `NaN` all become `0`.  The
subsequent `typeof value === "number"` filter keeps every element, since
`|| 0` has already produced a number. -/
def jsOrZero : Option JsNum → JsNum
  | none => .fin 0
  | some v => if jsTruthy v then v else .fin 0

/-- One column of the table: `data.map((entry) => entry[coin] || 0)`. -/
def colOf (data : List NRow) (k : String) : List JsNum :=
  data.map fun r => jsOrZero (r.values.lookup k)

/-- `calculateCorrelationMatrix(data)`: the 5 x 5 matrix of Pearson
correlations of the columns read under `matrixKeys` (the double for-loop
over a zero-prefilled array is written as a nested map). -/
noncomputable def calculateCorrelationMatrix (data : List NRow) : List (List JsNumR) :=
  matrixKeys.map fun a => matrixKeys.map fun b =>
    pearsonCorrelation (colOf data a) (colOf data b)

/-- Entry `matrix[i][j]` of a matrix given as a list of rows, `none` when
out of range. -/
def entryAt (m : List (List JsNumR)) (i j : ℕ) : Option JsNumR :=
  (m[i]?).bind fun row => row[j]?

/-- Sum of a rational list in the JS fold order, `l.reduce((a,b) => a+b, 0)`. -/
def sumL (l : List ℚ) : ℚ := l.foldl (· + ·) 0

/-- The quantity `sumX2 - sumX * sumX / n` from `pearsonCorrelation` for a
finite column, i.e. `n` times the population variance of the column; it is
zero exactly when the column has zero variance (for a nonempty column). -/
def varNum (l : List ℚ) : ℚ :=
  sumL (l.map fun q => q * q) - sumL l * sumL l / (l.length : ℚ)

/-- The numerator `sumXY - sumX * sumY / n` from `pearsonCorrelation` for
finite columns, i.e. `n` times the population covariance. -/
def covNum (x y : List ℚ) : ℚ :=
  sumL (List.zipWith (fun a b => a * b) x y) - sumL x * sumL y / (x.length : ℚ)

/-- A real-payload JS number equals a target rational up to a tolerance:
the form in which the spec states the diagonal property. -/
def withinTol (v : JsNumR) (c tol : ℝ) : Prop :=
  ∃ r : ℝ, v = .fin r ∧ |r - c| ≤ tol

section Helpers

lemma jmul_fin (a b : ℚ) : jmul (.fin a) (.fin b) = .fin (a * b) := rfl

lemma jadd_fin (a b : ℚ) : jadd (.fin a) (.fin b) = .fin (a + b) := rfl

lemma jsub_fin (a b : ℚ) : jsub (.fin a) (.fin b) = .fin (a - b) := by
  simp [jsub, jadd, jneg, sub_eq_add_neg]

lemma jdiv_fin (a b : ℚ) (hb : b ≠ 0) : jdiv (.fin a) (.fin b) = .fin (a / b) := by
  simp [jdiv, hb]

lemma jmul_comm (a b : JsNum) : jmul a b = jmul b a := by
  cases a <;> cases b <;> simp [jmul, mul_comm]

lemma sumL_nil : sumL [] = 0 := rfl

lemma sumL_foldl (l : List ℚ) (a : ℚ) : l.foldl (· + ·) a = a + sumL l := by
  induction l generalizing a with
  | nil => simp [sumL]
  | cons b t ih =>
      show (t.foldl (· + ·) (a + b)) = a + sumL (b :: t)
      have h2 : sumL (b :: t) = b + sumL t := by
        show (t.foldl (· + ·) (0 + b)) = b + sumL t
        rw [ih (0 + b)]
        ring
      rw [ih (a + b), h2]
      ring

lemma sumL_cons (a : ℚ) (l : List ℚ) : sumL (a :: l) = a + sumL l := by
  rw [sumL, List.foldl_cons, sumL_foldl]
  simp

lemma jsum_fin_aux (l : List ℚ) (a : ℚ) :
    List.foldl jadd (.fin a) (l.map .fin) = .fin (l.foldl (· + ·) a) := by
  induction l generalizing a with
  | nil => rfl
  | cons b t ih => simpa [jadd_fin] using ih (a + b)

lemma jsum_map_fin (l : List ℚ) : jsum (l.map .fin) = .fin (sumL l) := by
  rw [jsum, jsum_fin_aux]
  rfl

lemma mulPairs_map_fin (x y : List ℚ) (h : x.length = y.length) :
    mulPairs (x.map .fin) (y.map .fin) =
      (List.zipWith (fun a b => a * b) x y).map .fin := by
  induction x generalizing y with
  | nil => simp [mulPairs]
  | cons a t ih =>
      cases y with
      | nil => simp at h
      | cons b s =>
          simp only [List.length_cons, Nat.succ_inj] at h
          simp [mulPairs, List.zipWith, ih s h, jmul_fin]

lemma mulPairs_comm (x y : List JsNum) (h : x.length = y.length) :
    mulPairs x y = mulPairs y x := by
  induction x generalizing y with
  | nil =>
      cases y with
      | nil => rfl
      | cons b s => simp at h
  | cons a t ih =>
      cases y with
      | nil => simp at h
      | cons b s =>
          simp only [List.length_cons, Nat.succ_inj] at h
          simp [mulPairs, ih s h, jmul_comm]

lemma map_sq_fin (x : List ℚ) :
    (x.map .fin).map (fun v => jmul v v) = (x.map fun q => q * q).map .fin := by
  simp only [List.map_map]
  rfl

lemma zipWith_mul_self (x : List ℚ) :
    List.zipWith (fun a b => a * b) x x = x.map fun q => q * q := by
  induction x with
  | nil => rfl
  | cons a t ih => simp [List.zipWith, ih]

end Helpers

section MinMax

lemma jmin_fin (a b : ℚ) : jmin (.fin a) (.fin b) = .fin (min a b) := rfl

lemma jmax_fin (a b : ℚ) : jmax (.fin a) (.fin b) = .fin (max a b) := rfl

lemma jminList_fin_aux (l : List ℚ) (a : ℚ) :
    List.foldl jmin (.fin a) (l.map .fin) = .fin (l.foldl min a) := by
  induction l generalizing a with
  | nil => rfl
  | cons b t ih => simpa [jmin_fin] using ih (min a b)

lemma jmaxList_fin_aux (l : List ℚ) (a : ℚ) :
    List.foldl jmax (.fin a) (l.map .fin) = .fin (l.foldl max a) := by
  induction l generalizing a with
  | nil => rfl
  | cons b t ih => simpa [jmax_fin] using ih (max a b)

lemma foldl_min_spec (l : List ℚ) (a : ℚ) :
    l.foldl min a ≤ a ∧ (∀ p ∈ l, l.foldl min a ≤ p) ∧
      (l.foldl min a = a ∨ l.foldl min a ∈ l) := by
  induction l generalizing a with
  | nil => simp
  | cons b t ih =>
      obtain ⟨h1, h2, h3⟩ := ih (min a b)
      rw [List.foldl_cons]
      refine ⟨le_trans h1 (min_le_left a b), ?_, ?_⟩
      · intro p hp
        rcases List.mem_cons.mp hp with h | h
        · subst h
          exact le_trans h1 (min_le_right a p)
        · exact h2 p h
      · rcases h3 with h | h
        · rcases le_total a b with hab | hab
          · left
            rw [h, min_eq_left hab]
          · right
            rw [h, min_eq_right hab]
            exact List.mem_cons_self b t
        · exact Or.inr (List.mem_cons_of_mem b h)

lemma foldl_max_spec (l : List ℚ) (a : ℚ) :
    a ≤ l.foldl max a ∧ (∀ p ∈ l, p ≤ l.foldl max a) ∧
      (l.foldl max a = a ∨ l.foldl max a ∈ l) := by
  induction l generalizing a with
  | nil => simp
  | cons b t ih =>
      obtain ⟨h1, h2, h3⟩ := ih (max a b)
      rw [List.foldl_cons]
      refine ⟨le_trans (le_max_left a b) h1, ?_, ?_⟩
      · intro p hp
        rcases List.mem_cons.mp hp with h | h
        · subst h
          exact le_trans (le_max_right a p) h1
        · exact h2 p h
      · rcases h3 with h | h
        · rcases le_total b a with hab | hab
          · left
            rw [h, max_eq_left hab]
          · right
            rw [h, max_eq_right hab]
            exact List.mem_cons_self b t
        · exact Or.inr (List.mem_cons_of_mem b h)

/-- Shape of the `minMax` record: for an empty price list it is
`(Infinity, -Infinity)`; for a nonempty list both components are finite,
are members of the list, and bound every member. -/
lemma minMaxOf_shape (l : List ℚ) :
    (l = [] ∧ minMaxOf l = (.posInf, .negInf)) ∨
    (∃ m M : ℚ, minMaxOf l = (.fin m, .fin M) ∧ m ∈ l ∧ M ∈ l ∧
      ∀ p ∈ l, m ≤ p ∧ p ≤ M) := by
  cases l with
  | nil => exact Or.inl ⟨rfl, rfl⟩
  | cons a t =>
      refine Or.inr ⟨t.foldl min a, t.foldl max a, ?_, ?_, ?_, ?_⟩
      · show (List.foldl jmin (jmin .posInf (.fin a)) (t.map .fin),
              List.foldl jmax (jmax .negInf (.fin a)) (t.map .fin)) = _
        rw [show jmin JsNum.posInf (.fin a) = .fin a from rfl,
            show jmax JsNum.negInf (.fin a) = .fin a from rfl,
            jminList_fin_aux, jmaxList_fin_aux]
      · rcases (foldl_min_spec t a).2.2 with h | h
        · rw [h]
          exact List.mem_cons_self a t
        · exact List.mem_cons_of_mem a h
      · rcases (foldl_max_spec t a).2.2 with h | h
        · rw [h]
          exact List.mem_cons_self a t
        · exact List.mem_cons_of_mem a h
      · intro p hp
        rcases List.mem_cons.mp hp with h | h
        · subst h
          exact ⟨(foldl_min_spec t p).1, (foldl_max_spec t p).1⟩
        · exact ⟨(foldl_min_spec t a).2.1 p h, (foldl_max_spec t a).2.1 p h⟩

end MinMax

section Variance

lemma two_mul_sum_le (a : ℚ) (l : List ℚ) :
    2 * a * sumL l ≤ (l.length : ℚ) * (a * a) + sumL (l.map fun q => q * q) := by
  induction l with
  | nil => simp [sumL]
  | cons b t ih =>
      rw [sumL_cons, show ((b :: t).map fun q => q * q) = b * b :: t.map fun q => q * q from rfl,
          sumL_cons]
      have hab : 2 * a * b ≤ a * a + b * b := by nlinarith [sq_nonneg (a - b)]
      push_cast [List.length_cons]
      nlinarith [ih]

/-- Cauchy-Schwarz for a list against the all-ones vector:
`(sum l)^2 <= n * sum of squares`. -/
lemma sq_sumL_le (l : List ℚ) :
    sumL l * sumL l ≤ (l.length : ℚ) * sumL (l.map fun q => q * q) := by
  induction l with
  | nil => simp [sumL]
  | cons a t ih =>
      rw [sumL_cons, show ((a :: t).map fun q => q * q) = a * a :: t.map fun q => q * q from rfl,
          sumL_cons]
      have h2 := two_mul_sum_le a t
      push_cast [List.length_cons]
      nlinarith [ih]

/-- The variance-like quantity `sumX2 - sumX * sumX / n` computed by
`pearsonCorrelation` is nonnegative (for the empty list it is `0 - 0 / 0`,
which is `0` in exact rational arithmetic). -/
lemma varNum_nonneg (l : List ℚ) : 0 ≤ varNum l := by
  cases l with
  | nil => simp [varNum, sumL]
  | cons a t =>
      rw [varNum, sub_nonneg]
      have hn : (0 : ℚ) < ((a :: t).length : ℚ) := by
        simp [List.length_cons]
        positivity
      rw [div_le_iff₀ hn]
      calc sumL (a :: t) * sumL (a :: t)
          ≤ ((a :: t).length : ℚ) * sumL ((a :: t).map fun q => q * q) := sq_sumL_le _
        _ = sumL ((a :: t).map fun q => q * q) * ((a :: t).length : ℚ) := by ring

end Variance

section PearsonEval

/-- Evaluation of `pearsonCorrelation` on two finite (all-rational) columns
of equal positive length: the code returns `0` when the product of the two
variance terms is zero, and the exact Pearson quotient otherwise. -/
lemma pearson_map_fin (x y : List ℚ) (hlen : x.length = y.length) (hx : x ≠ []) :
    pearsonCorrelation (x.map .fin) (y.map .fin) =
      if varNum x * varNum y = 0 then .fin 0
      else .fin ((covNum x y : ℝ) / Real.sqrt ((varNum x * varNum y : ℚ) : ℝ)) := by
  have hn : ((x.length : ℚ)) ≠ 0 :=
    Nat.cast_ne_zero.mpr (Nat.pos_iff_ne_zero.mp (List.length_pos.mpr hx))
  have e3 : jsum (mulPairs (x.map .fin) (y.map .fin)) =
      .fin (sumL (List.zipWith (fun a b => a * b) x y)) := by
    rw [mulPairs_map_fin x y hlen, jsum_map_fin]
  have e4 : jsum ((x.map .fin).map fun v => jmul v v) =
      .fin (sumL (x.map fun q => q * q)) := by
    rw [map_sq_fin, jsum_map_fin]
  have e5 : jsum ((y.map .fin).map fun v => jmul v v) =
      .fin (sumL (y.map fun q => q * q)) := by
    rw [map_sq_fin, jsum_map_fin]
  simp only [pearsonCorrelation]
  rw [e3, e4, e5, jsum_map_fin x, jsum_map_fin y, List.length_map,
      jmul_fin (sumL x) (sumL y), jmul_fin (sumL x) (sumL x), jmul_fin (sumL y) (sumL y),
      jdiv_fin (sumL x * sumL y) ((x.length : ℚ)) hn,
      jdiv_fin (sumL x * sumL x) ((x.length : ℚ)) hn,
      jdiv_fin (sumL y * sumL y) ((x.length : ℚ)) hn,
      jsub_fin, jsub_fin, jsub_fin]
  have hVy : sumL (y.map fun q => q * q) - sumL y * sumL y / (x.length : ℚ) = varNum y := by
    rw [varNum, hlen]
  have hVx : sumL (x.map fun q => q * q) - sumL x * sumL x / (x.length : ℚ) = varNum x := rfl
  have hcov : sumL (List.zipWith (fun a b => a * b) x y) - sumL x * sumL y / (x.length : ℚ)
      = covNum x y := rfl
  rw [hVy, hVx, hcov, jmul_fin]
  have hPnn : (0 : ℚ) ≤ varNum x * varNum y := mul_nonneg (varNum_nonneg x) (varNum_nonneg y)
  have hs0 : jsqrtR (.fin (varNum x * varNum y)) =
      .fin (Real.sqrt ((varNum x * varNum y : ℚ) : ℝ)) := by
    simp only [jsqrtR]
    rw [if_neg (not_lt.mpr hPnn)]
  rw [hs0]
  have hiff : (JsNumR.fin (Real.sqrt ((varNum x * varNum y : ℚ) : ℝ)) = .fin 0) ↔
      varNum x * varNum y = 0 := by
    constructor
    · intro hfin
      have hsqrt : Real.sqrt ((varNum x * varNum y : ℚ) : ℝ) = 0 := by
        injection hfin
      have hle : ((varNum x * varNum y : ℚ) : ℝ) ≤ 0 := Real.sqrt_eq_zero'.mp hsqrt
      have hle2 : (varNum x * varNum y : ℚ) ≤ 0 := by exact_mod_cast hle
      exact le_antisymm hle2 hPnn
    · intro h0
      rw [h0]
      norm_num
  by_cases hP : varNum x * varNum y = 0
  · rw [if_pos (hiff.mpr hP), if_pos hP]
  · have hPpos : (0 : ℚ) < varNum x * varNum y := lt_of_le_of_ne hPnn (Ne.symm hP)
    have hPposR : (0 : ℝ) < ((varNum x * varNum y : ℚ) : ℝ) := by exact_mod_cast hPpos
    have hs : Real.sqrt ((varNum x * varNum y : ℚ) : ℝ) ≠ 0 :=
      ne_of_gt (Real.sqrt_pos.mpr hPposR)
    rw [if_neg (fun hc => hP (hiff.mp hc)), if_neg hP]
    simp only [toR, jdivR]
    rw [if_neg hs]

/-- If either column of a finite, equal-length, nonempty pair has zero
variance, `pearsonCorrelation` returns exactly `0`. -/
lemma pearson_degenerate (x y : List ℚ) (hlen : x.length = y.length) (hx : x ≠ [])
    (h : varNum x = 0 ∨ varNum y = 0) :
    pearsonCorrelation (x.map .fin) (y.map .fin) = .fin 0 := by
  rw [pearson_map_fin x y hlen hx]
  rcases h with h | h <;> simp [h]

/-- On finite, equal-length, nonempty columns `pearsonCorrelation` never
returns `NaN`. -/
lemma pearson_not_nan (x y : List ℚ) (hlen : x.length = y.length) (hx : x ≠ []) :
    pearsonCorrelation (x.map .fin) (y.map .fin) ≠ .nan := by
  rw [pearson_map_fin x y hlen hx]
  split_ifs <;> simp

/-- A finite column of nonzero variance has self-correlation exactly `1`. -/
lemma pearson_self_one (x : List ℚ) (hV : varNum x ≠ 0) :
    pearsonCorrelation (x.map .fin) (x.map .fin) = .fin 1 := by
  have hx : x ≠ [] := by
    intro h
    subst h
    simp [varNum, sumL] at hV
  rw [pearson_map_fin x x rfl hx, if_neg (mul_ne_zero hV hV)]
  have hcov : covNum x x = varNum x := by rw [covNum, varNum, zipWith_mul_self]
  have hVpos : (0 : ℚ) < varNum x := lt_of_le_of_ne (varNum_nonneg x) (Ne.symm hV)
  have hsq : Real.sqrt (((varNum x * varNum x : ℚ)) : ℝ) = ((varNum x : ℚ) : ℝ) := by
    push_cast
    exact Real.sqrt_mul_self (by exact_mod_cast hVpos.le)
  rw [hcov, hsq, div_self (by exact_mod_cast hV)]

/-- `pearsonCorrelation` on two empty columns is `NaN`: all sums are `0`
and `n = 0`, so `sumX * sumY / n` is `0 / 0 = NaN`, which propagates
through the unguarded `numerator / denominator`. -/
lemma pearson_nil : pearsonCorrelation [] [] = JsNumR.nan := by
  simp [pearsonCorrelation, jsum, mulPairs, jadd, jdiv, jmul, jsub, jneg, jsqrtR, toR, jdivR]

end PearsonEval

section TableLemmas

lemma buildRows_get? (assets : List (String × RawSeries)) (l : List ℚ) (k t : ℕ) :
    (buildRows assets l k).get? t = (l.get? t).map fun ts => mkRow assets ts (k + t) := by
  induction l generalizing k t with
  | nil => simp [buildRows]
  | cons ts rest ih =>
      cases t with
      | zero => simp [buildRows]
      | succ t =>
          show (buildRows assets rest (k + 1)).get? t = _
          rw [ih (k + 1) t, show k + 1 + t = k + (t + 1) by omega]
          rfl

lemma alignAndNormalize_get? (assets : List (String × RawSeries)) (t : ℕ) :
    (alignAndNormalize assets).get? t =
      ((((assets.headD ("", [])).2).map Prod.fst).get? t).map fun ts => mkRow assets ts t := by
  rw [alignAndNormalize]
  simp only [buildRows_get?, Nat.zero_add]

lemma alignAndNormalize_length (assets : List (String × RawSeries)) :
    (alignAndNormalize assets).length = ((assets.headD ("", [])).2).length := by
  rw [alignAndNormalize]
  have h : ∀ (l : List ℚ) (k : ℕ), (buildRows assets l k).length = l.length := by
    intro l
    induction l with
    | nil => intro k; rfl
    | cons ts rest ih => intro k; simp [buildRows, ih]
  rw [h]
  simp

lemma mkRow_values_get? (assets : List (String × RawSeries)) (ts : ℚ) (idx i : ℕ) :
    (mkRow assets ts idx).values.get? i =
      (assets.get? i).map fun a =>
        (a.1, normCoerced (rawPriceAt a.2 idx)
          (minMaxOf (a.2.map Prod.snd)).1 (minMaxOf (a.2.map Prod.snd)).2) := by
  simp [mkRow, List.get?_map]

/-- Every value the normalization loop stores is a finite rational: for a
nonempty series both min and max are finite with `max - min` nonzero off
the constant branch, and for an empty series the computed `NaN` is coerced
to `0` by the `isNaN` guard. -/
lemma normCoerced_minMaxOf_fin (prices : List ℚ) (raw : ℚ) :
    ∃ q : ℚ, normCoerced raw (minMaxOf prices).1 (minMaxOf prices).2 = .fin q := by
  rcases minMaxOf_shape prices with ⟨_, hmm⟩ | ⟨m, M, hmm, _, _, hbound⟩
  · rw [hmm]
    exact ⟨0, rfl⟩
  · rw [hmm]
    by_cases hMm : M = m
    · exact ⟨1 / 2, by simp [normCoerced, jEqb, hMm]⟩
    · refine ⟨(raw - m) / (M - m), ?_⟩
      have hMn : M - m ≠ 0 := sub_ne_zero.mpr hMm
      simp [normCoerced, jEqb, hMm, jsub_fin, jdiv_fin _ _ hMn]

lemma mkRow_values_fin (assets : List (String × RawSeries)) (ts : ℚ) (idx : ℕ) :
    ∀ kv ∈ (mkRow assets ts idx).values, ∃ q : ℚ, kv.2 = .fin q := by
  intro kv hkv
  simp only [mkRow, List.mem_map] at hkv
  obtain ⟨a, _, ha⟩ := hkv
  subst ha
  exact normCoerced_minMaxOf_fin (a.2.map Prod.snd) (rawPriceAt a.2 idx)

lemma lookup_fin {l : List (String × JsNum)} (hfin : ∀ kv ∈ l, ∃ q : ℚ, kv.2 = .fin q)
    (k : String) (v : JsNum) (hl : l.lookup k = some v) : ∃ q : ℚ, v = .fin q := by
  induction l with
  | nil => simp [List.lookup] at hl
  | cons kv t ih =>
      obtain ⟨a, b⟩ := kv
      cases hbe : (k == a) with
      | true =>
          have hl2 : some b = some v := by
            simp only [List.lookup, hbe] at hl
            exact hl
          obtain ⟨q, hq⟩ := hfin (a, b) (List.mem_cons_self (a, b) t)
          injection hl2 with h2
          exact ⟨q, by rw [← h2]; exact hq⟩
      | false =>
          have hl2 : t.lookup k = some v := by
            simp only [List.lookup, hbe] at hl
            exact hl
          exact ih (fun p hp => hfin p (List.mem_cons_of_mem (a, b) hp)) hl2

/-- The fallback `entry[coin] || 0` yields a finite rational on any table
row whose stored values are all finite. -/
lemma jsOrZero_fin {l : List (String × JsNum)} (hfin : ∀ kv ∈ l, ∃ q : ℚ, kv.2 = .fin q)
    (k : String) : ∃ q : ℚ, jsOrZero (l.lookup k) = .fin q := by
  cases hl : l.lookup k with
  | none => exact ⟨0, rfl⟩
  | some v =>
      obtain ⟨q, hq⟩ := lookup_fin hfin k v hl
      subst hq
      by_cases h0 : q = 0
      · exact ⟨0, by simp [jsOrZero, jsTruthy, h0]⟩
      · exact ⟨q, by simp [jsOrZero, jsTruthy, h0]⟩

end TableLemmas

section ColumnLemmas

/-- Finite payload of a JS number, `0` for the non-finite cases (used only
on values already known to be finite). -/
def unfin : JsNum → ℚ
  | .fin q => q
  | _ => 0

/-- A column extracted from any table produced by the normalizer consists
of finite values only, hence equals `map fin` of a rational list of the
same length as the table. -/
lemma colOf_align_eq_map_fin (assets : List (String × RawSeries)) (k : String) :
    ∃ qs : List ℚ, colOf (alignAndNormalize assets) k = qs.map .fin ∧
      qs.length = (alignAndNormalize assets).length := by
  refine ⟨(alignAndNormalize assets).map fun r => unfin (jsOrZero (r.values.lookup k)),
    ?_, by simp⟩
  rw [colOf, List.map_map]
  apply List.map_congr_left
  intro r hr
  have hrfin : ∀ kv ∈ r.values, ∃ q : ℚ, kv.2 = .fin q := by
    obtain ⟨t, ht⟩ := List.get?_of_mem hr
    have hget := alignAndNormalize_get? assets t
    rw [ht] at hget
    cases hts : (((assets.headD ("", [])).2).map Prod.fst).get? t with
    | none => rw [hts] at hget; simp at hget
    | some ts =>
        rw [hts] at hget
        simp only [Option.map_some'] at hget
        injection hget with hgr
        rw [hgr]
        exact mkRow_values_fin assets ts t
  obtain ⟨q, hq⟩ := jsOrZero_fin hrfin k
  simp [Function.comp, hq, unfin]

lemma lookup_eq_none {β : Type} (l : List (String × β)) (k : String)
    (h : ∀ kv ∈ l, kv.1 ≠ k) : l.lookup k = none := by
  induction l with
  | nil => rfl
  | cons kv t ih =>
      obtain ⟨a, b⟩ := kv
      have ha : a ≠ k := h (a, b) (List.mem_cons_self (a, b) t)
      have hbe : (k == a) = false := by
        simp [BEq.beq]
        exact fun he => ha he.symm
      simp only [List.lookup, hbe]
      exact ih fun p hp => h p (List.mem_cons_of_mem (a, b) hp)

/-- A column read under a key absent from every row is the all-zero
column (`undefined || 0`). -/
lemma colOf_absent (data : List NRow) (k : String)
    (h : ∀ r ∈ data, r.values.lookup k = none) :
    colOf data k = (data.map fun _ => (0 : ℚ)).map .fin := by
  rw [colOf, List.map_map]
  apply List.map_congr_left
  intro r hr
  simp [Function.comp, h r hr, jsOrZero]

lemma sumL_zero_col (data : List NRow) : sumL (data.map fun _ => (0 : ℚ)) = 0 := by
  induction data with
  | nil => rfl
  | cons r t ih => rw [List.map_cons, sumL_cons, ih, add_zero]

lemma varNum_zero_col (data : List NRow) : varNum (data.map fun _ => (0 : ℚ)) = 0 := by
  rw [varNum]
  have h1 : ((data.map fun _ => (0 : ℚ)).map fun q => q * q) = data.map fun _ => (0 : ℚ) := by
    rw [List.map_map]
    apply List.map_congr_left
    intro r _
    simp [Function.comp]
  rw [h1, sumL_zero_col]
  simp

end ColumnLemmas

section Symmetry

/-- `pearsonCorrelation` is symmetric on equal-length columns: swapping
the columns swaps `sumX` with `sumY`, fixes `sumXY` elementwise by
commutativity of `*`, and multiplies the two variance factors in the other
order under the same `n`. -/
lemma pearson_comm (x y : List JsNum) (hlen : x.length = y.length) :
    pearsonCorrelation x y = pearsonCorrelation y x := by
  simp only [pearsonCorrelation]
  rw [mulPairs_comm x y hlen, ← hlen,
      jmul_comm (jsum x) (jsum y),
      jmul_comm (jsub (jsum (x.map fun v => jmul v v))
          (jdiv (jmul (jsum x) (jsum x)) (.fin (x.length : ℚ))))
        (jsub (jsum (y.map fun v => jmul v v))
          (jdiv (jmul (jsum y) (jsum y)) (.fin (x.length : ℚ))))]

/-- Matrix entry symmetry: the two columns always come from the same table
and hence have equal length. -/
lemma matrix_symm (data : List NRow) (i j : ℕ) :
    entryAt (calculateCorrelationMatrix data) i j =
      entryAt (calculateCorrelationMatrix data) j i := by
  rw [entryAt, entryAt, calculateCorrelationMatrix]
  cases hi : matrixKeys[i]? with
  | none =>
      cases hj : matrixKeys[j]? with
      | none => simp [List.getElem?_map, hi, hj]
      | some b => simp [List.getElem?_map, hi, hj]
  | some a =>
      cases hj : matrixKeys[j]? with
      | none => simp [List.getElem?_map, hi, hj]
      | some b =>
          simp only [List.getElem?_map, hi, hj, Option.map_some', Option.some_bind]
          have hcols : (colOf data a).length = (colOf data b).length := by
            simp [colOf]
          rw [pearson_comm (colOf data a) (colOf data b) hcols]

end Symmetry

section BridgeLemmas

/-- Every row of the normalized table is `mkRow` at some timestamp and
index. -/
lemma mem_align_mkRow (assets : List (String × RawSeries)) (r : NRow)
    (hr : r ∈ alignAndNormalize assets) : ∃ ts t, r = mkRow assets ts t := by
  obtain ⟨t, ht⟩ := List.get?_of_mem hr
  have hget := alignAndNormalize_get? assets t
  rw [ht] at hget
  cases hts : (((assets.headD ("", [])).2).map Prod.fst).get? t with
  | none =>
      rw [hts] at hget
      simp at hget
  | some ts =>
      rw [hts] at hget
      simp only [Option.map_some'] at hget
      injection hget with hgr
      exact ⟨ts, t, hgr⟩

/-- Every key stored in a row is the key of one of the assets. -/
lemma mkRow_keys (assets : List (String × RawSeries)) (ts : ℚ) (idx : ℕ) :
    ∀ kv ∈ (mkRow assets ts idx).values, ∃ a ∈ assets, kv.1 = a.1 := by
  intro kv hkv
  simp only [mkRow, List.mem_map] at hkv
  obtain ⟨a, ha, hkv2⟩ := hkv
  exact ⟨a, ha, by rw [← hkv2]⟩

/-- If one of the two keys is absent from every row of a normalized table,
the corresponding column is all zeros, its variance term is `0`, and the
Pearson correlation of the pair is exactly `0`. -/
lemma pearson_align_zerokey (assets : List (String × RawSeries)) (ka kb : String)
    (hne : alignAndNormalize assets ≠ [])
    (h : (∀ r ∈ alignAndNormalize assets, r.values.lookup ka = none) ∨
         (∀ r ∈ alignAndNormalize assets, r.values.lookup kb = none)) :
    pearsonCorrelation (colOf (alignAndNormalize assets) ka)
      (colOf (alignAndNormalize assets) kb) = .fin 0 := by
  obtain ⟨qa, hqa, hla⟩ := colOf_align_eq_map_fin assets ka
  obtain ⟨qb, hqb, hlb⟩ := colOf_align_eq_map_fin assets kb
  have hinj : Function.Injective JsNum.fin := fun a b hab => by injection hab
  have hlen : qa.length = qb.length := hla.trans hlb.symm
  have hqa_ne : qa ≠ [] := by
    intro h0
    apply hne
    have : (alignAndNormalize assets).length = 0 := by rw [← hla, h0]; rfl
    exact List.length_eq_zero.mp this
  rw [hqa, hqb]
  apply pearson_degenerate qa qb hlen hqa_ne
  rcases h with h | h
  · left
    have hz : qa.map JsNum.fin = ((alignAndNormalize assets).map fun _ => (0 : ℚ)).map JsNum.fin := by
      rw [← hqa, colOf_absent _ ka h]
    have : qa = (alignAndNormalize assets).map fun _ => (0 : ℚ) :=
      List.map_injective_iff.mpr hinj hz
    rw [this]
    exact varNum_zero_col _
  · right
    have hz : qb.map JsNum.fin = ((alignAndNormalize assets).map fun _ => (0 : ℚ)).map JsNum.fin := by
      rw [← hqb, colOf_absent _ kb h]
    have : qb = (alignAndNormalize assets).map fun _ => (0 : ℚ) :=
      List.map_injective_iff.mpr hinj hz
    rw [this]
    exact varNum_zero_col _

/-- The normalized value stored for a constant-series asset is `0.5`:
for a nonempty constant series both bounds are the same finite value and
the `max === min` branch fires; the hypothesis is never satisfied by an
empty series, whose bounds are `Infinity` and `-Infinity`. -/
lemma normCoerced_const (prices : List ℚ) (raw : ℚ)
    (h : (minMaxOf prices).1 = (minMaxOf prices).2) :
    normCoerced raw (minMaxOf prices).1 (minMaxOf prices).2 = .fin (1 / 2) := by
  rcases minMaxOf_shape prices with ⟨_, hmm⟩ | ⟨m, M, hmm, _, _, _⟩
  · rw [hmm] at h
    simp at h
  · rw [hmm] at h ⊢
    simp only at h
    injection h with hm
    rw [hm]
    simp [normCoerced, jEqb]

end BridgeLemmas

/-- C1: for every asset whose raw price series is constant in the sense
computed by the code (`Math.min` of the prices equals `Math.max` of the
prices), `alignAndNormalize` stores the value exactly `0.5` for that asset
in every row of the output table. -/
theorem C1_constant_half (assets : List (String × RawSeries)) (i : ℕ)
    (a : String × RawSeries) (ha : assets.get? i = some a)
    (hconst : (minMaxOf (a.2.map Prod.snd)).1 = (minMaxOf (a.2.map Prod.snd)).2)
    (t : ℕ) (row : NRow) (hrow : (alignAndNormalize assets).get? t = some row) :
    row.values.get? i = some (a.1, .fin (1 / 2)) := by
  obtain ⟨ts, t2, hr⟩ := mem_align_mkRow assets row (List.get?_mem hrow)
  subst hr
  rw [mkRow_values_get?, ha, Option.map_some']
  rw [normCoerced_const (a.2.map Prod.snd) (rawPriceAt a.2 t2) hconst]

/-- C1 witness: a two-point constant series at price 5. -/
theorem C1_constant_half_witness :
    ([(("k" : String), [((0 : ℚ), (5 : ℚ)), (1, 5)])].get? 0 = some ("k", [((0 : ℚ), (5 : ℚ)), (1, 5)])) ∧
    (minMaxOf ([((0 : ℚ), (5 : ℚ)), (1, 5)].map Prod.snd)).1 =
      (minMaxOf ([((0 : ℚ), (5 : ℚ)), (1, 5)].map Prod.snd)).2 ∧
    ((alignAndNormalize [("k", [((0 : ℚ), (5 : ℚ)), (1, 5)])]).get? 0 =
      some ⟨0, [("k", JsNum.fin (1 / 2))]⟩) ∧
    (⟨0, [("k", JsNum.fin (1 / 2))]⟩ : NRow).values.get? 0 = some ("k", .fin (1 / 2)) :=
  ⟨rfl, rfl, rfl,
    C1_constant_half [("k", [((0 : ℚ), (5 : ℚ)), (1, 5)])] 0 ("k", [((0 : ℚ), (5 : ℚ)), (1, 5)])
      rfl rfl 0 ⟨0, [("k", JsNum.fin (1 / 2))]⟩ rfl⟩

/-- C2: the correlation matrix is symmetric (`matrix[i][j] == matrix[j][i]`
for every table and all indices), and `pearsonCorrelation` is symmetric on
every pair of equal-length columns. -/
theorem C2_matrix_symmetric :
    (∀ (data : List NRow) (i j : ℕ),
        entryAt (calculateCorrelationMatrix data) i j =
          entryAt (calculateCorrelationMatrix data) j i) ∧
    (∀ x y : List JsNum, x.length = y.length →
        pearsonCorrelation x y = pearsonCorrelation y x) :=
  ⟨matrix_symm, pearson_comm⟩

/-- C2 witness: concrete instantiation of both parts. -/
theorem C2_matrix_symmetric_witness :
    (entryAt (calculateCorrelationMatrix []) 0 1 = entryAt (calculateCorrelationMatrix []) 1 0) ∧
    ([JsNum.fin 1, JsNum.fin 2].length = [JsNum.fin 3, JsNum.fin 5].length) ∧
    pearsonCorrelation [JsNum.fin 1, JsNum.fin 2] [JsNum.fin 3, JsNum.fin 5] =
      pearsonCorrelation [JsNum.fin 3, JsNum.fin 5] [JsNum.fin 1, JsNum.fin 2] :=
  ⟨C2_matrix_symmetric.1 [] 0 1, rfl,
    C2_matrix_symmetric.2 [JsNum.fin 1, JsNum.fin 2] [JsNum.fin 3, JsNum.fin 5] rfl⟩

/-- C3: for every column with nonzero variance (the code quantity
`sumX2 - sumX * sumX / n` is nonzero, which for a nonempty column is
nonzero exactly when the variance is), the self-correlation is within
`1e-9` of `1`; in the exact arithmetic of the model it is exactly `1`. -/
theorem C3_diagonal_one (x : List ℚ) (hV : varNum x ≠ 0) :
    withinTol (pearsonCorrelation (x.map JsNum.fin) (x.map JsNum.fin)) 1 (1e-9) :=
  ⟨1, pearson_self_one x hV, by norm_num⟩

/-- C3 witness: the column `[0, 1]`. -/
theorem C3_diagonal_one_witness :
    varNum [0, 1] ≠ 0 ∧
    withinTol (pearsonCorrelation (([0, 1] : List ℚ).map JsNum.fin)
      (([0, 1] : List ℚ).map JsNum.fin)) 1 (1e-9) :=
  ⟨by norm_num [varNum, sumL], C3_diagonal_one [0, 1] (by norm_num [varNum, sumL])⟩

/-- C4: on a pair of equal-length nonempty columns, if either column has
zero variance (so the Pearson denominator is exactly `0`), the code
returns exactly `0`, not `NaN`. -/
theorem C4_zero_variance_zero (x y : List ℚ) (hx : x ≠ []) (hlen : x.length = y.length)
    (h : varNum x = 0 ∨ varNum y = 0) :
    pearsonCorrelation (x.map JsNum.fin) (y.map JsNum.fin) = .fin 0 :=
  pearson_degenerate x y hlen hx h

/-- C4 witness: constant column `[2, 2]` against `[0, 1]`. -/
theorem C4_zero_variance_zero_witness :
    (([2, 2] : List ℚ) ≠ []) ∧ ([2, 2] : List ℚ).length = ([0, 1] : List ℚ).length ∧
    (varNum [2, 2] = 0 ∨ varNum ([0, 1] : List ℚ) = 0) ∧
    pearsonCorrelation (([2, 2] : List ℚ).map JsNum.fin) (([0, 1] : List ℚ).map JsNum.fin) =
      .fin 0 :=
  ⟨by simp, rfl, Or.inl (by norm_num [varNum, sumL]),
    C4_zero_variance_zero [2, 2] [0, 1] (by simp) rfl (Or.inl (by norm_num [varNum, sumL]))⟩

/-- C5: for an asset whose raw series is non-constant (finite computed min
and max with `min != max`), under the precondition that every series has
the length of the first series, every value stored for this asset is the
exact min-max ratio, lies in `[0, 1]`, and the indices holding the minimum
and maximum raw price map to `0` and `1` respectively. -/
theorem C5_nonconstant_unit_interval (assets : List (String × RawSeries)) (i : ℕ)
    (a : String × RawSeries) (ha : assets.get? i = some a)
    (m M : ℚ) (hmm : minMaxOf (a.2.map Prod.snd) = (.fin m, .fin M)) (hMm : m ≠ M)
    (hlen : ∀ b ∈ assets, b.2.length = ((assets.headD ("", [])).2).length)
    (t : ℕ) (row : NRow) (hrow : (alignAndNormalize assets).get? t = some row) :
    row.values.get? i = some (a.1, .fin ((rawPriceAt a.2 t - m) / (M - m))) ∧
    0 ≤ (rawPriceAt a.2 t - m) / (M - m) ∧ (rawPriceAt a.2 t - m) / (M - m) ≤ 1 ∧
    (rawPriceAt a.2 t = m → (rawPriceAt a.2 t - m) / (M - m) = 0) ∧
    (rawPriceAt a.2 t = M → (rawPriceAt a.2 t - m) / (M - m) = 1) := by
  rcases minMaxOf_shape (a.2.map Prod.snd) with ⟨_, hmm2⟩ | ⟨m2, M2, hmm2, _, _, hbound⟩
  · rw [hmm2] at hmm
    simp [Prod.ext_iff] at hmm
  rw [hmm2] at hmm
  simp only [Prod.mk.injEq, JsNum.fin.injEq] at hmm
  obtain ⟨hm2, hM2⟩ := hmm
  rw [hm2, hM2] at hmm2 hbound
  have hmem_a : a ∈ assets := List.get?_mem ha
  have hL := hlen a hmem_a
  -- recover the row as mkRow at index t, and t within the first series
  have hget0 := alignAndNormalize_get? assets t
  rw [hrow] at hget0
  cases hts : (((assets.headD ("", [])).2).map Prod.fst).get? t with
  | none =>
      rw [hts] at hget0
      simp at hget0
  | some ts =>
      rw [hts] at hget0
      simp only [Option.map_some'] at hget0
      injection hget0 with hget0
      have htL : t < a.2.length := by
        have h1 := (List.get?_eq_some.mp hts).1
        rw [List.length_map] at h1
        omega
      have hget : a.2.get? t = some (a.2.get ⟨t, htL⟩) := List.get?_eq_get htL
      have hraw : rawPriceAt a.2 t = (a.2.get ⟨t, htL⟩).2 := by
        rw [rawPriceAt, hget]
        rfl
      have hmem_p : rawPriceAt a.2 t ∈ a.2.map Prod.snd := by
        rw [hraw]
        exact List.mem_map.mpr ⟨a.2.get ⟨t, htL⟩, List.get_mem a.2 t htL, rfl⟩
      obtain ⟨hmp, hpM⟩ := hbound _ hmem_p
      have hm_le_M : m ≤ M := le_trans hmp hpM
      have hlt : m < M := lt_of_le_of_ne hm_le_M hMm
      have hpos : (0 : ℚ) < M - m := sub_pos.mpr hlt
      have hMn : M - m ≠ 0 := ne_of_gt hpos
      have hBeq : (M == m) = false := beq_eq_false_iff_ne.mpr (Ne.symm hMm)
      refine ⟨?_, div_nonneg (sub_nonneg.mpr hmp) hpos.le,
        (div_le_one hpos).mpr (sub_le_sub_right hpM m), ?_, ?_⟩
      · rw [hget0, mkRow_values_get?, ha, Option.map_some', hmm2]
        simp only [Option.some.injEq, Prod.mk.injEq, true_and]
        simp [normCoerced, jEqb, hBeq, jsub_fin, jdiv_fin _ _ hMn]
      · intro h0
        rw [h0]
        simp
      · intro h1
        rw [h1, div_self hMn]

/-- C5 witness: the spec example series `[0, 50, 100]`. -/
theorem C5_nonconstant_unit_interval_witness :
    ([(("a" : String), [((0 : ℚ), (0 : ℚ)), (1, 50), (2, 100)])].get? 0 =
      some ("a", [((0 : ℚ), (0 : ℚ)), (1, 50), (2, 100)])) ∧
    minMaxOf (([((0 : ℚ), (0 : ℚ)), (1, 50), (2, 100)] : RawSeries).map Prod.snd) =
      (.fin 0, .fin 100) ∧
    ((0 : ℚ) ≠ 100) ∧
    ((alignAndNormalize [("a", [((0 : ℚ), (0 : ℚ)), (1, 50), (2, 100)])]).get? 1 =
      some ⟨1, [("a", JsNum.fin (1 / 2))]⟩) ∧
    ((⟨1, [("a", JsNum.fin (1 / 2))]⟩ : NRow).values.get? 0 =
      some ("a", .fin ((rawPriceAt [((0 : ℚ), (0 : ℚ)), (1, 50), (2, 100)] 1 - 0) / (100 - 0))) ∧
    0 ≤ (rawPriceAt [((0 : ℚ), (0 : ℚ)), (1, 50), (2, 100)] 1 - 0) / (100 - 0) ∧
    (rawPriceAt [((0 : ℚ), (0 : ℚ)), (1, 50), (2, 100)] 1 - 0) / (100 - 0) ≤ 1 ∧
    (rawPriceAt [((0 : ℚ), (0 : ℚ)), (1, 50), (2, 100)] 1 = 0 →
      (rawPriceAt [((0 : ℚ), (0 : ℚ)), (1, 50), (2, 100)] 1 - 0) / (100 - 0) = 0) ∧
    (rawPriceAt [((0 : ℚ), (0 : ℚ)), (1, 50), (2, 100)] 1 = 100 →
      (rawPriceAt [((0 : ℚ), (0 : ℚ)), (1, 50), (2, 100)] 1 - 0) / (100 - 0) = 1)) :=
  ⟨rfl, rfl, by norm_num,
    by norm_num [alignAndNormalize, buildRows, mkRow, minMaxOf, jminList, jmaxList, jmin,
        jmax, min_def, max_def, rawPriceAt, normCoerced, jEqb, jsub, jadd, jneg, jdiv] <;> simp,
    C5_nonconstant_unit_interval [("a", [((0 : ℚ), (0 : ℚ)), (1, 50), (2, 100)])] 0
      ("a", [((0 : ℚ), (0 : ℚ)), (1, 50), (2, 100)]) rfl 0 100 rfl (by norm_num)
      (by simp) 1 ⟨1, [("a", JsNum.fin (1 / 2))]⟩
      (by norm_num [alignAndNormalize, buildRows, mkRow, minMaxOf, jminList, jmaxList, jmin,
        jmax, min_def, max_def, rawPriceAt, normCoerced, jEqb, jsub, jadd, jneg, jdiv] <;> simp)⟩

/-- C6: the `minMax` record each asset is normalized with is computed over
the full raw price series of that asset: the stored `min` is a member of
the full price list and bounds every price from below, dually for `max`,
and every table row for this asset is normalized with exactly this pair. -/
theorem C6_minmax_full_series (assets : List (String × RawSeries)) (i : ℕ)
    (a : String × RawSeries) (ha : assets.get? i = some a)
    (m M : ℚ) (hmm : minMaxOf (a.2.map Prod.snd) = (.fin m, .fin M)) :
    m ∈ a.2.map Prod.snd ∧ (∀ p ∈ a.2.map Prod.snd, m ≤ p) ∧
    M ∈ a.2.map Prod.snd ∧ (∀ p ∈ a.2.map Prod.snd, p ≤ M) ∧
    ∀ t row, (alignAndNormalize assets).get? t = some row →
      row.values.get? i = some (a.1, normCoerced (rawPriceAt a.2 t) (.fin m) (.fin M)) := by
  rcases minMaxOf_shape (a.2.map Prod.snd) with ⟨_, hmm2⟩ | ⟨m2, M2, hmm2, hmemm, hmemM, hbound⟩
  · rw [hmm2] at hmm
    simp [Prod.ext_iff] at hmm
  have hEq : (JsNum.fin m2, JsNum.fin M2) = (JsNum.fin m, JsNum.fin M) := by
    rw [← hmm2, hmm]
  simp only [Prod.mk.injEq, JsNum.fin.injEq] at hEq
  obtain ⟨hm2, hM2⟩ := hEq
  refine ⟨hm2 ▸ hmemm, fun p hp => hm2 ▸ (hbound p hp).1, hM2 ▸ hmemM,
    fun p hp => hM2 ▸ (hbound p hp).2, ?_⟩
  intro t row hrow
  have hget0 := alignAndNormalize_get? assets t
  rw [hrow] at hget0
  cases hts : (((assets.headD ("", [])).2).map Prod.fst).get? t with
  | none =>
      rw [hts] at hget0
      simp at hget0
  | some ts =>
      rw [hts] at hget0
      simp only [Option.map_some'] at hget0
      injection hget0 with hget0
      rw [hget0, mkRow_values_get?, ha, Option.map_some', hmm]

/-- C6 witness: the series `[3, 1, 2]`, whose min is 1 and max is 3. -/
theorem C6_minmax_full_series_witness :
    ([(("a" : String), [((0 : ℚ), (3 : ℚ)), (1, 1), (2, 2)])].get? 0 =
      some ("a", [((0 : ℚ), (3 : ℚ)), (1, 1), (2, 2)])) ∧
    minMaxOf (([((0 : ℚ), (3 : ℚ)), (1, 1), (2, 2)] : RawSeries).map Prod.snd) =
      (.fin 1, .fin 3) ∧
    ((1 : ℚ) ∈ ([((0 : ℚ), (3 : ℚ)), (1, 1), (2, 2)] : RawSeries).map Prod.snd ∧
     (∀ p ∈ ([((0 : ℚ), (3 : ℚ)), (1, 1), (2, 2)] : RawSeries).map Prod.snd, (1 : ℚ) ≤ p) ∧
     (3 : ℚ) ∈ ([((0 : ℚ), (3 : ℚ)), (1, 1), (2, 2)] : RawSeries).map Prod.snd ∧
     (∀ p ∈ ([((0 : ℚ), (3 : ℚ)), (1, 1), (2, 2)] : RawSeries).map Prod.snd, p ≤ (3 : ℚ)) ∧
     ∀ t row,
       (alignAndNormalize [("a", [((0 : ℚ), (3 : ℚ)), (1, 1), (2, 2)])]).get? t = some row →
         row.values.get? 0 = some ("a",
           normCoerced (rawPriceAt [((0 : ℚ), (3 : ℚ)), (1, 1), (2, 2)] t) (.fin 1) (.fin 3))) :=
  ⟨rfl, rfl,
    C6_minmax_full_series [("a", [((0 : ℚ), (3 : ℚ)), (1, 1), (2, 2)])] 0
      ("a", [((0 : ℚ), (3 : ℚ)), (1, 1), (2, 2)]) rfl 1 3 rfl⟩

/-- C8: the aligner raises no error on missing data: whenever an asset
series has no entry at a timestamp index that is in range for the table,
the raw price used for that asset defaults to `0`
(`result.prices[index]?.[1] || 0`) and normalization is applied to `0`. -/
theorem C8_missing_defaults_zero (assets : List (String × RawSeries)) (i : ℕ)
    (a : String × RawSeries) (ha : assets.get? i = some a)
    (t : ℕ) (row : NRow) (hrow : (alignAndNormalize assets).get? t = some row)
    (hmiss : a.2.get? t = none) :
    rawPriceAt a.2 t = 0 ∧
    row.values.get? i = some (a.1,
      normCoerced 0 (minMaxOf (a.2.map Prod.snd)).1 (minMaxOf (a.2.map Prod.snd)).2) := by
  have hraw : rawPriceAt a.2 t = 0 := by
    rw [rawPriceAt, hmiss]
    rfl
  refine ⟨hraw, ?_⟩
  have hget0 := alignAndNormalize_get? assets t
  rw [hrow] at hget0
  cases hts : (((assets.headD ("", [])).2).map Prod.fst).get? t with
  | none =>
      rw [hts] at hget0
      simp at hget0
  | some ts =>
      rw [hts] at hget0
      simp only [Option.map_some'] at hget0
      injection hget0 with hget0
      rw [hget0, mkRow_values_get?, ha, Option.map_some', hraw]

/-- C8 witness: a second asset whose series is shorter than the first. -/
theorem C8_missing_defaults_zero_witness :
    ([(("a" : String), [((0 : ℚ), (1 : ℚ)), (1, 2)]),
      (("b" : String), [((0 : ℚ), (7 : ℚ))])].get? 1 = some ("b", [((0 : ℚ), (7 : ℚ))])) ∧
    (([((0 : ℚ), (7 : ℚ))] : RawSeries).get? 1 = none) ∧
    ((alignAndNormalize [("a", [((0 : ℚ), (1 : ℚ)), (1, 2)]), ("b", [((0 : ℚ), (7 : ℚ))])]).get? 1 =
      some ⟨1, [("a", JsNum.fin 1), ("b", JsNum.fin (1 / 2))]⟩) ∧
    rawPriceAt ([((0 : ℚ), (7 : ℚ))] : RawSeries) 1 = 0 ∧
    (⟨1, [("a", JsNum.fin 1), ("b", JsNum.fin (1 / 2))]⟩ : NRow).values.get? 1 =
      some ("b", normCoerced 0 (minMaxOf (([((0 : ℚ), (7 : ℚ))] : RawSeries).map Prod.snd)).1
        (minMaxOf (([((0 : ℚ), (7 : ℚ))] : RawSeries).map Prod.snd)).2) :=
  ⟨rfl, rfl,
    by norm_num [alignAndNormalize, buildRows, mkRow, minMaxOf, jminList, jmaxList, jmin,
        jmax, min_def, max_def, rawPriceAt, normCoerced, jEqb, jsub, jadd, jneg, jdiv] <;> simp,
    by
      have h := C8_missing_defaults_zero
        [("a", [((0 : ℚ), (1 : ℚ)), (1, 2)]), ("b", [((0 : ℚ), (7 : ℚ))])] 1
        ("b", [((0 : ℚ), (7 : ℚ))]) rfl 1 ⟨1, [("a", JsNum.fin 1), ("b", JsNum.fin (1 / 2))]⟩
        (by norm_num [alignAndNormalize, buildRows, mkRow, minMaxOf, jminList, jmaxList, jmin,
          jmax, min_def, max_def, rawPriceAt, normCoerced, jEqb, jsub, jadd, jneg, jdiv] <;> simp)
        rfl
      exact h.1,
    by
      have h := C8_missing_defaults_zero
        [("a", [((0 : ℚ), (1 : ℚ)), (1, 2)]), ("b", [((0 : ℚ), (7 : ℚ))])] 1
        ("b", [((0 : ℚ), (7 : ℚ))]) rfl 1 ⟨1, [("a", JsNum.fin 1), ("b", JsNum.fin (1 / 2))]⟩
        (by norm_num [alignAndNormalize, buildRows, mkRow, minMaxOf, jminList, jmaxList, jmin,
          jmax, min_def, max_def, rawPriceAt, normCoerced, jEqb, jsub, jadd, jneg, jdiv] <;> simp)
        rfl
      exact h.2⟩

/-- C7 counterexample: on the input where every fetched series is empty
(allowed by `result.prices || []`), the table is empty, every matrix column
is empty, and `pearsonCorrelation` on empty columns is `NaN` (`n = 0` makes
`sumX*sumY/n` a `0/0`), which the `denominator === 0` guard does not catch.
So `NaN` does appear in the returned correlation matrix. -/
theorem C7_nan_counterexample :
    entryAt (calculateCorrelationMatrix (fetchCombined [[], [], [], [], []])) 0 0 =
      some JsNumR.nan := by
  have htbl : fetchCombined [[], [], [], [], []] = [] := rfl
  rw [htbl, entryAt, calculateCorrelationMatrix]
  have hc : ∀ k, colOf [] k = [] := fun _ => rfl
  simp [matrixKeys, hc, pearson_nil]

/-- C7 as amended: no `NaN` ever appears in the normalized table (the
`isNaN` coercion guarantees it), and no `NaN` appears in the correlation
matrix computed from a NONEMPTY table; the empty table (first raw series
empty) is the only case in which `NaN` escapes into the matrix. -/
theorem C7_nan_coercion_amended :
    (∀ (assets : List (String × RawSeries)) (r : NRow), r ∈ alignAndNormalize assets →
        ∀ kv ∈ r.values, kv.2 ≠ JsNum.nan) ∧
    (∀ assets : List (String × RawSeries), alignAndNormalize assets ≠ [] →
        ∀ (i j : ℕ) (v : JsNumR),
          entryAt (calculateCorrelationMatrix (alignAndNormalize assets)) i j = some v →
          v ≠ JsNumR.nan) := by
  constructor
  · intro assets r hr kv hkv
    obtain ⟨ts, t, hrk⟩ := mem_align_mkRow assets r hr
    subst hrk
    obtain ⟨q, hq⟩ := mkRow_values_fin assets ts t kv hkv
    rw [hq]
    simp
  · intro assets hne i j v hv
    rw [entryAt, calculateCorrelationMatrix] at hv
    cases hi : matrixKeys[i]? with
    | none =>
        rw [List.getElem?_map, hi] at hv
        simp at hv
    | some a =>
        cases hj : matrixKeys[j]? with
        | none =>
            rw [List.getElem?_map, hi] at hv
            simp only [Option.map_some', Option.some_bind] at hv
            rw [List.getElem?_map, hj] at hv
            simp at hv
        | some b =>
            rw [List.getElem?_map, hi] at hv
            simp only [Option.map_some', Option.some_bind] at hv
            rw [List.getElem?_map, hj] at hv
            simp only [Option.map_some', Option.some.injEq] at hv
            obtain ⟨qa, hqa, hla⟩ := colOf_align_eq_map_fin assets a
            obtain ⟨qb, hqb, hlb⟩ := colOf_align_eq_map_fin assets b
            have hqa_ne : qa ≠ [] := by
              intro h0
              apply hne
              apply List.length_eq_zero.mp
              rw [← hla, h0]
              rfl
            rw [← hv, hqa, hqb]
            exact pearson_not_nan qa qb (hla.trans hlb.symm) hqa_ne

/-- C7 witness for the amended claim: five singleton series. -/
theorem C7_nan_coercion_amended_witness :
    ((⟨0, [("bit", JsNum.fin (1 / 2)), ("eth", JsNum.fin (1 / 2)), ("bin", JsNum.fin (1 / 2)),
        ("sol", JsNum.fin (1 / 2)), ("car", JsNum.fin (1 / 2))]⟩ : NRow) ∈
      alignAndNormalize (chartKeys.zip
        [[((0 : ℚ), (1 : ℚ))], [(0, 2)], [(0, 3)], [(0, 4)], [(0, 5)]])) ∧
    (("bit", JsNum.fin (1 / 2)) ∈
      (⟨0, [("bit", JsNum.fin (1 / 2)), ("eth", JsNum.fin (1 / 2)), ("bin", JsNum.fin (1 / 2)),
        ("sol", JsNum.fin (1 / 2)), ("car", JsNum.fin (1 / 2))]⟩ : NRow).values) ∧
    (("bit", JsNum.fin (1 / 2)) : String × JsNum).2 ≠ JsNum.nan ∧
    (alignAndNormalize (chartKeys.zip
        [[((0 : ℚ), (1 : ℚ))], [(0, 2)], [(0, 3)], [(0, 4)], [(0, 5)]]) ≠ []) ∧
    entryAt (calculateCorrelationMatrix (alignAndNormalize (chartKeys.zip
        [[((0 : ℚ), (1 : ℚ))], [(0, 2)], [(0, 3)], [(0, 4)], [(0, 5)]]))) 1 1 ≠
      some JsNumR.nan := by
  have hrow : (alignAndNormalize (chartKeys.zip
      [[((0 : ℚ), (1 : ℚ))], [(0, 2)], [(0, 3)], [(0, 4)], [(0, 5)]])).get? 0 =
      some ⟨0, [("bit", JsNum.fin (1 / 2)), ("eth", JsNum.fin (1 / 2)), ("bin", JsNum.fin (1 / 2)),
        ("sol", JsNum.fin (1 / 2)), ("car", JsNum.fin (1 / 2))]⟩ := rfl
  have hmem := List.get?_mem hrow
  refine ⟨hmem, ?_, ?_, ?_, ?_⟩
  · simp
  · exact C7_nan_coercion_amended.1 _ _ hmem ("bit", JsNum.fin (1 / 2)) (by simp)
  · intro h0
    rw [h0] at hrow
    simp at hrow
  · intro hbad
    exact C7_nan_coercion_amended.2 _
      (by intro h0; rw [h0] at hrow; simp at hrow) 1 1 JsNumR.nan hbad rfl

/-- C9: the numeric core is deterministic and side-effect-free: two runs on
equal inputs produce equal normalized tables and equal correlation
matrices.  The embedding is a pure function of the input series, mirroring
the code, whose numeric pipeline performs no I/O and reads no state beyond
its inputs. -/
theorem C9_deterministic (a b : List (String × RawSeries)) (h : a = b) :
    alignAndNormalize a = alignAndNormalize b ∧
    calculateCorrelationMatrix (alignAndNormalize a) =
      calculateCorrelationMatrix (alignAndNormalize b) := by
  subst h
  exact ⟨rfl, rfl⟩

/-- C9 witness: one concrete run compared with itself. -/
theorem C9_deterministic_witness :
    ([(("k" : String), [((0 : ℚ), (1 : ℚ))])] = [(("k" : String), [((0 : ℚ), (1 : ℚ))])]) ∧
    alignAndNormalize [(("k" : String), [((0 : ℚ), (1 : ℚ))])] =
      alignAndNormalize [(("k" : String), [((0 : ℚ), (1 : ℚ))])] ∧
    calculateCorrelationMatrix (alignAndNormalize [(("k" : String), [((0 : ℚ), (1 : ℚ))])]) =
      calculateCorrelationMatrix (alignAndNormalize [(("k" : String), [((0 : ℚ), (1 : ℚ))])]) :=
  ⟨rfl, C9_deterministic _ _ rfl⟩

/-- C10: the table keys are the first three characters of the CoinGecko
ids (`bit`, `eth`, `bin`, `sol`, `car`), while the correlation engine reads
`btc`, `eth`, `bnb`, `sol`, `ada`; so on every nonempty table of the
pipeline the lookups for `btc`, `bnb` and `ada` miss and are coerced to
all-zero columns, and every matrix entry in a row or column of index 0, 2
or 4 (including the diagonal entries for those assets) is exactly `0`. -/
theorem C10_key_mismatch (s1 s2 s3 s4 s5 : RawSeries)
    (hne : fetchCombined [s1, s2, s3, s4, s5] ≠ []) :
    (∀ r ∈ fetchCombined [s1, s2, s3, s4, s5],
        r.values.lookup "btc" = none ∧ r.values.lookup "bnb" = none ∧
          r.values.lookup "ada" = none) ∧
    (∀ i j : ℕ, i < 5 → j < 5 → (i = 0 ∨ i = 2 ∨ i = 4 ∨ j = 0 ∨ j = 2 ∨ j = 4) →
        entryAt (calculateCorrelationMatrix (fetchCombined [s1, s2, s3, s4, s5])) i j =
          some (JsNumR.fin 0)) := by
  simp only [fetchCombined] at hne ⊢
  have hkeys : ∀ r ∈ alignAndNormalize (chartKeys.zip [s1, s2, s3, s4, s5]),
      ∀ kv ∈ r.values, kv.1 ∈ chartKeys := by
    intro r hr kv hkv
    obtain ⟨ts, t, hrk⟩ := mem_align_mkRow _ r hr
    subst hrk
    obtain ⟨a, haz, hk⟩ := mkRow_keys _ ts t kv hkv
    rw [hk]
    obtain ⟨k, s⟩ := a
    exact (List.mem_zip haz).1
  have habs : ∀ k0 : String, k0 ∉ chartKeys →
      ∀ r ∈ alignAndNormalize (chartKeys.zip [s1, s2, s3, s4, s5]),
        r.values.lookup k0 = none := by
    intro k0 hk0 r hr
    apply lookup_eq_none
    intro kv hkv h
    exact hk0 (h ▸ hkeys r hr kv hkv)
  have hbtc := habs "btc" (by decide)
  have hbnb := habs "bnb" (by decide)
  have hada := habs "ada" (by decide)
  refine ⟨fun r hr => ⟨hbtc r hr, hbnb r hr, hada r hr⟩, ?_⟩
  have hzero : ∀ (i j : ℕ) (a b : String), matrixKeys[i]? = some a → matrixKeys[j]? = some b →
      ((∀ r ∈ alignAndNormalize (chartKeys.zip [s1, s2, s3, s4, s5]),
          r.values.lookup a = none) ∨
       (∀ r ∈ alignAndNormalize (chartKeys.zip [s1, s2, s3, s4, s5]),
          r.values.lookup b = none)) →
      entryAt (calculateCorrelationMatrix
        (alignAndNormalize (chartKeys.zip [s1, s2, s3, s4, s5]))) i j =
        some (JsNumR.fin 0) := by
    intro i j a b hia hjb h
    rw [entryAt, calculateCorrelationMatrix, List.getElem?_map, hia]
    simp only [Option.map_some', Option.some_bind]
    rw [List.getElem?_map, hjb]
    simp only [Option.map_some', Option.some.injEq]
    exact pearson_align_zerokey _ a b hne h
  intro i j hi hj hbad
  interval_cases i <;> interval_cases j <;>
    first
      | exact absurd hbad (by omega)
      | exact hzero _ _ _ _ rfl rfl (Or.inl hbtc)
      | exact hzero _ _ _ _ rfl rfl (Or.inl hbnb)
      | exact hzero _ _ _ _ rfl rfl (Or.inl hada)
      | exact hzero _ _ _ _ rfl rfl (Or.inr hbtc)
      | exact hzero _ _ _ _ rfl rfl (Or.inr hbnb)
      | exact hzero _ _ _ _ rfl rfl (Or.inr hada)

/-- C10 witness: five singleton series; the entry at row 0 (the dead `btc`
column) and column 1 (`eth`) is exactly `0`. -/
theorem C10_key_mismatch_witness :
    (fetchCombined [[((0 : ℚ), (1 : ℚ))], [(0, 2)], [(0, 3)], [(0, 4)], [(0, 5)]] ≠ []) ∧
    ((⟨0, [("bit", JsNum.fin (1 / 2)), ("eth", JsNum.fin (1 / 2)), ("bin", JsNum.fin (1 / 2)),
        ("sol", JsNum.fin (1 / 2)), ("car", JsNum.fin (1 / 2))]⟩ : NRow).values.lookup "btc" = none ∧
     (⟨0, [("bit", JsNum.fin (1 / 2)), ("eth", JsNum.fin (1 / 2)), ("bin", JsNum.fin (1 / 2)),
        ("sol", JsNum.fin (1 / 2)), ("car", JsNum.fin (1 / 2))]⟩ : NRow).values.lookup "bnb" = none ∧
     (⟨0, [("bit", JsNum.fin (1 / 2)), ("eth", JsNum.fin (1 / 2)), ("bin", JsNum.fin (1 / 2)),
        ("sol", JsNum.fin (1 / 2)), ("car", JsNum.fin (1 / 2))]⟩ : NRow).values.lookup "ada" = none) ∧
    ((0 : ℕ) < 5) ∧ ((1 : ℕ) < 5) ∧
    ((0 : ℕ) = 0 ∨ (0 : ℕ) = 2 ∨ (0 : ℕ) = 4 ∨ (1 : ℕ) = 0 ∨ (1 : ℕ) = 2 ∨ (1 : ℕ) = 4) ∧
    entryAt (calculateCorrelationMatrix
      (fetchCombined [[((0 : ℚ), (1 : ℚ))], [(0, 2)], [(0, 3)], [(0, 4)], [(0, 5)]])) 0 1 =
      some (JsNumR.fin 0) := by
  have hrow : (fetchCombined [[((0 : ℚ), (1 : ℚ))], [(0, 2)], [(0, 3)], [(0, 4)], [(0, 5)]]).get? 0 =
      some ⟨0, [("bit", JsNum.fin (1 / 2)), ("eth", JsNum.fin (1 / 2)), ("bin", JsNum.fin (1 / 2)),
        ("sol", JsNum.fin (1 / 2)), ("car", JsNum.fin (1 / 2))]⟩ := rfl
  have hne : fetchCombined [[((0 : ℚ), (1 : ℚ))], [(0, 2)], [(0, 3)], [(0, 4)], [(0, 5)]] ≠ [] := by
    intro h0
    rw [h0] at hrow
    simp at hrow
  have h10 := C10_key_mismatch [((0 : ℚ), (1 : ℚ))] [(0, 2)] [(0, 3)] [(0, 4)] [(0, 5)] hne
  exact ⟨hne, h10.1 _ (List.get?_mem hrow), by decide, by decide, Or.inl rfl,
    h10.2 0 1 (by decide) (by decide) (Or.inl rfl)⟩
